import Mathlib

/-!
Verification of the resticprofile scheduling core against its specification.

The development shallowly embeds the Go sources:
* `src/schedule/schedule_darwin.go` — the launchd trigger materializer
  (`getCalendarIntervalsFromSchedule`, `getCalendarIntervalsFromSchedules`,
  `permutations`, `getJobName`);
* `src/schedule/job.go` — the job lifecycle (`Job.Create`, `Job.Remove`,
  `Job.Status`);
* the `calendar`, `lock` and permission helpers are not part of the available
  sources (only their callers and tests are); they are modelled from the
  specification, each such definition is marked `Modelled from the spec:`.
-/

namespace Resticprofile

/-! ## Calendar values (modelled from the spec)

The Go `calendar` package is not in the available sources.  The materializer
consumes it only through `Value.HasValue()` and `Value.GetRangeValues()`.
-/

/-- Modelled from the spec: one element of a calendar field value, §4.1 grammar:
a bare integer or name is a Singleton, `a-b` an inclusive range, `a-b/c` a
stepped range. -/
inductive SchedItem where
  | single (n : Nat)
  | range (lo hi : Nat)
  | srange (lo hi step : Nat)
  deriving DecidableEq, Repr

/-- Modelled from the spec: a calendar field value is either Any
(unconstrained) or a Set, the union of singletons and ranges (§3
CalendarField). -/
inductive CalValue where
  | any
  | set (items : List SchedItem)
  deriving DecidableEq, Repr

/-- Modelled from the spec: the concrete integers denoted by one item of a
field value.  A stepped range `a-b/c` holds a, a+c, a+2c, ... up to b. -/
def expandItem : SchedItem → List Nat
  | .single n => [n]
  | .range lo hi => List.range' lo (hi + 1 - lo)
  | .srange lo hi step => List.range' lo ((hi - lo) / step + 1) step

/-- Modelled from the spec: `Value.HasValue()` is true iff the field is
constrained (not Any). -/
def CalValue.HasValue : CalValue → Bool
  | .any => false
  | .set _ => true

/-- Modelled from the spec: `Value.GetRangeValues()` lists the concrete values
of a constrained field; an unconstrained field has none. -/
def CalValue.GetRangeValues : CalValue → List Nat
  | .any => []
  | .set items => items.flatMap expandItem

/-- Modelled from the spec: `calendar.Event` carries one value per calendar
field kind (§3 CalendarExpression). -/
structure Event where
  WeekDay : CalValue
  Month : CalValue
  Day : CalValue
  Hour : CalValue
  Minute : CalValue
  Second : CalValue
  deriving DecidableEq, Repr

/-- Data-model invariant of §3: every item of a constrained field denotes at
least one value (ranges are non-empty, steps are positive). -/
def ItemWF : SchedItem → Prop
  | .single _ => True
  | .range lo hi => lo ≤ hi
  | .srange lo hi step => lo ≤ hi ∧ 1 ≤ step

instance (it : SchedItem) : Decidable (ItemWF it) := by
  cases it <;> simp only [ItemWF] <;> infer_instance

/-- Data-model invariant of §3 for a whole field value: a Set is a non-empty
union of well-formed items. -/
def ValueWF : CalValue → Prop
  | .any => True
  | .set items => items ≠ [] ∧ ∀ it ∈ items, ItemWF it

instance (v : CalValue) : Decidable (ValueWF v) := by
  cases v <;> simp only [ValueWF] <;> infer_instance

/-- Data-model invariant of §3 for a whole expression. -/
def EventWF (e : Event) : Prop :=
  ValueWF e.WeekDay ∧ ValueWF e.Month ∧ ValueWF e.Day ∧ ValueWF e.Hour ∧
    ValueWF e.Minute ∧ ValueWF e.Second

instance (e : Event) : Decidable (EventWF e) := by
  unfold EventWF; infer_instance

/-! ## The launchd trigger materializer (src/schedule/schedule_darwin.go) -/

/-- `CalendarInterval` from schedule_darwin.go: a discrete launchd trigger
record; a Go zero value (0) stands for an omitted (unconstrained) field. -/
structure CalendarInterval where
  Month : Nat := 0
  Day : Nat := 0
  Weekday : Nat := 0
  Hour : Nat := 0
  Minute : Nat := 0
  deriving DecidableEq, Repr

/-- `permutations` from schedule_darwin.go lines 259-264. -/
def permutations (total num : Nat) : Nat :=
  if total = 0 then num else total * num

/-- Modelled from the spec: `spread` (referenced but absent from the available
sources) lays one field across the entries by mixed-radix expansion, §4.3:
entry index i receives the value at position (i / blockSize) mod cardinality,
where blockSize is the product of the cardinalities of the lower-priority
fields; `permutation` accumulates the product of the cardinalities of the
fields already spread (the Go code updates it through a pointer, unused by the
caller afterwards). -/
def spread (values : List Nat) (total : Nat) (permutation : Nat) : List Nat :=
  let num := values.length
  let blockSize := total / (permutation * num)
  (List.range total).map fun i => values.getD ((i / blockSize) % num) 0

/-- `getCalendarIntervalsFromSchedule` from schedule_darwin.go lines 227-257:
computes the entry count from the five consulted fields, allocates zeroed
entries, then fills in only the Weekday column ("can't do anything generic
here..." in the source). -/
def getCalendarIntervalsFromSchedule (schedule : Event) : List CalendarInterval :=
  let values := [schedule.WeekDay, schedule.Month, schedule.Day, schedule.Hour,
    schedule.Minute]
  let total := values.foldl
    (fun total value =>
      if value.HasValue then permutations total value.GetRangeValues.length
      else total) 0
  let entries : List CalendarInterval := List.replicate total {}
  if schedule.WeekDay.HasValue then
    let line := spread schedule.WeekDay.GetRangeValues total 1
    (List.range total).map fun i => { Weekday := line.getD i 0 }
  else
    entries

/-- `getCalendarIntervalsFromSchedules` from schedule_darwin.go lines 219-225. -/
def getCalendarIntervalsFromSchedules (schedules : List Event) : List CalendarInterval :=
  schedules.foldl (fun entries s => entries ++ getCalendarIntervalsFromSchedule s) []

/-- The `namePrefix` constant from schedule_darwin.go. -/
def launchdNamePrefixVal : String := "local.resticprofile."

/-- Embedding of Go `strings.ToLower` (ASCII case mapping, as exercised by
profile names). -/
def goToLower (s : String) : String := String.mk (s.data.map Char.toLower)

/-- `getJobName` from schedule_darwin.go lines 169-171. -/
def getJobName (profileName : String) : String :=
  launchdNamePrefixVal ++ goToLower profileName

/-! ## Helper quantities for the materializer claims -/

/-- The five field values the materializer consults, in its priority order. -/
def eventValues (s : Event) : List CalValue :=
  [s.WeekDay, s.Month, s.Day, s.Hour, s.Minute]

/-- Product of the cardinalities of the fields carrying more than one concrete
value (the quantity named by the claims). -/
def multiValuedProduct (l : List CalValue) : Nat :=
  l.foldr
    (fun v p =>
      if 1 < v.GetRangeValues.length then v.GetRangeValues.length * p else p) 1

/-- Product of the cardinalities of all constrained fields. -/
def hasValueProduct (l : List CalValue) : Nat :=
  l.foldr
    (fun v p => if v.HasValue then v.GetRangeValues.length * p else p) 1

/-- The expression with every field unconstrained. -/
def allAnyEvent : Event :=
  { WeekDay := .any, Month := .any, Day := .any, Hour := .any, Minute := .any,
    Second := .any }

/-- The expression of the scenario "weekdays Monday to Friday, minutes 0 and
30, every hour" (the source comment's first example, Mon-Fri *-*-* *:0,30:00). -/
def monFriHalfHour : Event :=
  { WeekDay := .set [.range 1 5], Month := .any, Day := .any, Hour := .any,
    Minute := .set [.single 0, .single 30], Second := .set [.single 0] }

/-! ## Lemmas on the entry count -/

theorem expandItem_ne_nil {it : SchedItem} (h : ItemWF it) : expandItem it ≠ [] := by
  cases it with
  | single n => simp [expandItem]
  | range lo hi =>
    simp only [ItemWF] at h
    simp only [expandItem, ne_eq, List.range'_eq_nil]
    omega
  | srange lo hi step =>
    simp only [expandItem, ne_eq, List.range'_eq_nil]
    simp

theorem card_pos_of_wf {v : CalValue} (hwf : ValueWF v) (h : v.HasValue = true) :
    0 < v.GetRangeValues.length := by
  cases v with
  | any => simp [CalValue.HasValue] at h
  | set items =>
    obtain ⟨hne, hitems⟩ := hwf
    cases items with
    | nil => exact absurd rfl hne
    | cons it rest =>
      have h1 : expandItem it ≠ [] := expandItem_ne_nil (hitems it (by simp))
      simp only [CalValue.GetRangeValues, List.flatMap_cons, List.length_append]
      have := List.length_pos.mpr h1
      omega

theorem hasValueProduct_nil : hasValueProduct [] = 1 := rfl

theorem hasValueProduct_cons (v : CalValue) (l : List CalValue) :
    hasValueProduct (v :: l) =
      if v.HasValue then v.GetRangeValues.length * hasValueProduct l
      else hasValueProduct l := rfl

theorem multiValuedProduct_cons (v : CalValue) (l : List CalValue) :
    multiValuedProduct (v :: l) =
      if 1 < v.GetRangeValues.length then
        v.GetRangeValues.length * multiValuedProduct l
      else multiValuedProduct l := rfl

theorem hasValueProduct_cons_true {v : CalValue} (l : List CalValue)
    (hhas : v.HasValue = true) :
    hasValueProduct (v :: l) = v.GetRangeValues.length * hasValueProduct l := by
  rw [hasValueProduct_cons, if_pos hhas]

theorem hasValueProduct_cons_false {v : CalValue} (l : List CalValue)
    (hhas : v.HasValue = false) :
    hasValueProduct (v :: l) = hasValueProduct l := by
  rw [hasValueProduct_cons, if_neg (by simp [hhas])]

theorem foldl_total_pos (l : List CalValue) (h : ∀ v ∈ l, ValueWF v) :
    ∀ t : Nat, 0 < t →
      l.foldl
        (fun total value =>
          if value.HasValue then permutations total value.GetRangeValues.length
          else total) t = t * hasValueProduct l := by
  induction l with
  | nil => intro t _; simp [hasValueProduct]
  | cons v l ih =>
    intro t ht
    have hv : ValueWF v := h v (by simp)
    have hl : ∀ w ∈ l, ValueWF w := fun w hw => h w (by simp [hw])
    rw [List.foldl_cons]
    cases hhas : v.HasValue with
    | false =>
      rw [if_neg (by simp), hasValueProduct_cons_false l hhas]
      exact ih hl t ht
    | true =>
      have hcard : 0 < v.GetRangeValues.length := card_pos_of_wf hv hhas
      rw [if_pos rfl, permutations, if_neg (by omega),
        ih hl (t * v.GetRangeValues.length) (by positivity),
        hasValueProduct_cons_true l hhas]
      ring

theorem foldl_total_spec (l : List CalValue) (h : ∀ v ∈ l, ValueWF v) :
    l.foldl
      (fun total value =>
        if value.HasValue then permutations total value.GetRangeValues.length
        else total) 0 =
      if l.any CalValue.HasValue then hasValueProduct l else 0 := by
  induction l with
  | nil => simp
  | cons v l ih =>
    have hv : ValueWF v := h v (by simp)
    have hl : ∀ w ∈ l, ValueWF w := fun w hw => h w (by simp [hw])
    rw [List.foldl_cons]
    cases hhas : v.HasValue with
    | false =>
      rw [if_neg (by simp), ih hl, List.any_cons, hhas, Bool.false_or,
        hasValueProduct_cons_false l hhas]
    | true =>
      have hcard : 0 < v.GetRangeValues.length := card_pos_of_wf hv hhas
      rw [if_pos rfl, permutations, if_pos rfl, foldl_total_pos l hl _ hcard,
        List.any_cons, hhas, Bool.true_or, hasValueProduct_cons_true l hhas]
      rw [if_pos rfl]

theorem hasValueProduct_eq_multi (l : List CalValue) (h : ∀ v ∈ l, ValueWF v) :
    hasValueProduct l = multiValuedProduct l := by
  induction l with
  | nil => rfl
  | cons v l ih =>
    have hv : ValueWF v := h v (by simp)
    have hl : ∀ w ∈ l, ValueWF w := fun w hw => h w (by simp [hw])
    rw [hasValueProduct_cons, multiValuedProduct_cons, ih hl]
    cases hhas : v.HasValue with
    | false =>
      have hzero : v.GetRangeValues.length = 0 := by
        cases v with
        | any => rfl
        | set items => simp [CalValue.HasValue] at hhas
      rw [if_neg (by simp), if_neg (by omega)]
    | true =>
      have hcard : 0 < v.GetRangeValues.length := card_pos_of_wf hv hhas
      by_cases h1 : 1 < v.GetRangeValues.length
      · rw [if_pos rfl, if_pos h1]
      · have heq : v.GetRangeValues.length = 1 := by omega
        rw [if_pos rfl, if_neg h1, heq, one_mul]

theorem length_getCalendarIntervals (s : Event) :
    (getCalendarIntervalsFromSchedule s).length =
      (eventValues s).foldl
        (fun total value =>
          if value.HasValue then permutations total value.GetRangeValues.length
          else total) 0 := by
  unfold getCalendarIntervalsFromSchedule eventValues
  cases h : s.WeekDay.HasValue <;> simp [h]

theorem eventValues_wf {s : Event} (h : EventWF s) : ∀ v ∈ eventValues s, ValueWF v := by
  obtain ⟨h1, h2, h3, h4, h5, _⟩ := h
  intro v hv
  simp only [eventValues, List.mem_cons, List.mem_singleton] at hv
  rcases hv with rfl | rfl | rfl | rfl | rfl | hv
  · exact h1
  · exact h2
  · exact h3
  · exact h4
  · exact h5
  · cases hv

/-! ## Claims C1, C2, C3 about the materializer -/

/-- Claim C1, counterexample: the expression with every field unconstrained
has zero fields carrying more than one concrete value, yet the materializer
produces 0 entries, not exactly one as the claim states. -/
theorem materializer_unconstrained_not_one_entry :
    ((eventValues allAnyEvent).all
        (fun v => decide (v.GetRangeValues.length ≤ 1)) = true) ∧
    (getCalendarIntervalsFromSchedule allAnyEvent).length ≠ 1 := by
  decide

/-- Claim C1 (amended): for every well-formed expression with at least one
constrained field (among the five fields the materializer consults: WeekDay,
Month, Day, Hour, Minute), the number of emitted entries equals the product of
the cardinalities of the fields carrying more than one concrete value; when no
consulted field is constrained the materializer emits zero entries. -/
theorem materializer_entry_count (s : Event) (hwf : EventWF s) :
    ((eventValues s).any CalValue.HasValue = true →
      (getCalendarIntervalsFromSchedule s).length =
        multiValuedProduct (eventValues s)) ∧
    ((eventValues s).any CalValue.HasValue = false →
      (getCalendarIntervalsFromSchedule s).length = 0) := by
  have hvals := eventValues_wf hwf
  have hlen := length_getCalendarIntervals s
  rw [foldl_total_spec _ hvals] at hlen
  constructor
  · intro hany
    rw [hlen, if_pos hany, hasValueProduct_eq_multi _ hvals]
  · intro hany
    rw [hlen, if_neg (by simp [hany])]

/-- Claim C1 witness: on the Monday-to-Friday, minutes 0 and 30 expression the
entry count equals the product of multi-valued cardinalities. -/
theorem materializer_entry_count_witness :
    (getCalendarIntervalsFromSchedule monFriHalfHour).length =
      multiValuedProduct (eventValues monFriHalfHour) :=
  (materializer_entry_count monFriHalfHour (by decide)).1 (by decide)

/-- Claim C2: the materializer run on the expression "weekdays Monday-Friday,
minutes 0 and 30, every hour" does emit exactly 10 entries with no hour
constraint, but every emitted entry has Minute = 0 (the Go zero value, omitted
from the plist): the code fills in only the Weekday column, so the minute
values are never carried into the entries, contradicting both the claim and
the source's own documentation comment (lines 198-218). -/
theorem monFriHalfHour_materialization :
    (getCalendarIntervalsFromSchedule monFriHalfHour).length = 10 ∧
    (getCalendarIntervalsFromSchedule monFriHalfHour).all
      (fun e => decide (e.Minute = 0 ∧ e.Hour = 0)) = true := by
  decide

/-- Claim C3: in the mixed-radix expansion each combination of one concrete
value per multi-valued field must appear exactly once; on the
Monday-to-Friday, minutes 0 and 30 expression the combination
(Weekday = 1, Minute = 30) appears zero times among the emitted entries,
because the code spreads only the Weekday field. -/
theorem monFriHalfHour_missing_combination :
    (getCalendarIntervalsFromSchedule monFriHalfHour).countP
      (fun e => decide (e.Weekday = 1 ∧ e.Minute = 30)) = 0 := by
  decide

/-! ## Claim C10: case-normalization of the job label -/

theorem toNat_ofNat_of_valid {n : Nat} (h : n.isValidChar) :
    (Char.ofNat n).toNat = n := by
  rw [Char.ofNat, dif_pos h]
  rfl

theorem charToLower_idem (c : Char) : c.toLower.toLower = c.toLower := by
  by_cases h : 65 ≤ c.toNat ∧ c.toNat ≤ 90
  · have hval : (c.toNat + 32).isValidChar := Or.inl (by omega)
    have hlow : c.toLower = Char.ofNat (c.toNat + 32) := by
      unfold Char.toLower
      rw [if_pos ⟨h.1, h.2⟩]
    rw [hlow]
    unfold Char.toLower
    rw [if_neg (by rw [toNat_ofNat_of_valid hval]; omega)]
  · have hlow : c.toLower = c := by
      unfold Char.toLower
      rw [if_neg h]
    rw [hlow, hlow]

theorem goToLower_idem (p : String) : goToLower (goToLower p) = goToLower p := by
  unfold goToLower
  apply congrArg String.mk
  show (p.data.map Char.toLower).map Char.toLower = p.data.map Char.toLower
  induction p.data with
  | nil => rfl
  | cons c l ih => simp only [List.map_cons, ih, charToLower_idem]

/-- Claim C10: getJobName prepends the fixed prefix "local.resticprofile." to
the lowercased profile name, so two profile names differing only in letter
case map to the same native job label. -/
theorem getJobName_case_normalized (p : String) :
    getJobName p = "local.resticprofile." ++ goToLower p ∧
    getJobName p = getJobName (goToLower p) := by
  refine ⟨rfl, ?_⟩
  unfold getJobName
  exact congrArg (launchdNamePrefixVal ++ ·) (goToLower_idem p).symm

/-! ## Job lifecycle (src/schedule/job.go)

The permission helpers (`detectSchedulePermission`, `getSchedulePermission`,
`checkPermission`) and the `Handler` implementation are not in the available
sources; they are modelled from the specification (§3 PermissionLevel,
§4.4 Platform Handler, §4.5).
-/

/-- Modelled from the spec: the permission levels (§3 PermissionLevel). -/
inductive PermissionLevel where
  | user
  | system
  deriving DecidableEq, Repr

/-- Modelled from the spec: a job's permission policy is an explicit level or
"auto" (§3 Job). -/
inductive PermissionPolicy where
  | user
  | system
  | auto
  deriving DecidableEq, Repr

/-- Modelled from the spec: the ambient facts permission resolution consults:
the process privilege, and any permission inferable from an existing native
registration. -/
structure PermContext where
  processIsRoot : Bool
  existingRegistration : Option PermissionLevel
  deriving DecidableEq, Repr

/-- Modelled from the spec: `detectSchedulePermission` resolves a permission
level with the §3 precedence: explicit configured value, else the value
inferred from an existing native registration, else the least-privileged
default (user).  The boolean reports whether the result is a reliable
detection rather than the fallback guess. -/
def detectSchedulePermission (policy : PermissionPolicy) (ctx : PermContext) :
    PermissionLevel × Bool :=
  match policy with
  | .user => (.user, true)
  | .system => (.system, true)
  | .auto =>
    match ctx.existingRegistration with
    | some lvl => (lvl, true)
    | none => (.user, false)

/-- Modelled from the spec: `getSchedulePermission` is the detection with the
reliability flag dropped (the Go version only logs a warning on it). -/
def getSchedulePermission (policy : PermissionPolicy) (ctx : PermContext) :
    PermissionLevel :=
  (detectSchedulePermission policy ctx).1

/-- Modelled from the spec: `checkPermission` is true iff the current process
privilege satisfies the level: user level is always satisfied, system level
requires root (§4.5 Accessible). -/
def checkPermission (lvl : PermissionLevel) (ctx : PermContext) : Bool :=
  match lvl with
  | .user => true
  | .system => ctx.processIsRoot

/-- The `config.ScheduleConfig` fields job.go reads. -/
structure ScheduleConfig where
  Permission : PermissionPolicy
  Schedules : List String
  SubTitle : String
  RemoveOnly : Bool

/-- Errors of the lifecycle: ErrorJobCanBeRemovedOnly, permissionError(op),
and arbitrary handler errors. -/
inductive JobError where
  | removeOnlyErr
  | permissionErr (op : String)
  | handlerErr (code : Nat)
  deriving DecidableEq, Repr

/-- One handler capability invocation, for call tracing. -/
inductive HandlerCall where
  | parseSchedules
  | displayParsedSchedules
  | displaySchedules
  | createJob
  | removeJob
  | displayJobStatus
  deriving DecidableEq, Repr

/-- Modelled from the spec: the platform handler capability set (§4.4) as pure
response functions. -/
structure Handler where
  parseSchedules : List String → Except JobError (List Event)
  displaySchedules : String → List String → Option JobError
  createJob : ScheduleConfig → List Event → PermissionLevel → Option JobError
  removeJob : ScheduleConfig → PermissionLevel → Option JobError
  displayJobStatus : ScheduleConfig → Option JobError

/-- The `Job` struct from job.go lines 23-26. -/
structure Job where
  config : ScheduleConfig
  handler : Handler

/-- `Job.RemoveOnly` from job.go lines 87-89. -/
def Job.RemoveOnly (j : Job) : Bool :=
  j.config.RemoveOnly

/-- `Job.Accessible` from job.go lines 31-34. -/
def Job.Accessible (j : Job) (ctx : PermContext) : Bool :=
  checkPermission (detectSchedulePermission j.config.Permission ctx).1 ctx

/-- `Job.Create` from job.go lines 37-68, returning the Go error result paired
with the trace of handler invocations made. -/
def Job.Create (j : Job) (ctx : PermContext) : Option JobError × List HandlerCall :=
  if j.RemoveOnly then (some .removeOnlyErr, [])
  else
    let permission := getSchedulePermission j.config.Permission ctx
    if checkPermission permission ctx = false then
      (some (.permissionErr "create"), [])
    else
      match j.handler.parseSchedules j.config.Schedules with
      | .error err => (some err, [.parseSchedules])
      | .ok schedules =>
        if 0 < schedules.length then
          match j.handler.createJob j.config schedules permission with
          | some err =>
            (some err, [.parseSchedules, .displayParsedSchedules, .createJob])
          | none => (none, [.parseSchedules, .displayParsedSchedules, .createJob])
        else
          match j.handler.displaySchedules j.config.SubTitle j.config.Schedules with
          | some err => (some err, [.parseSchedules, .displaySchedules])
          | none =>
            match j.handler.createJob j.config schedules permission with
            | some err =>
              (some err, [.parseSchedules, .displaySchedules, .createJob])
            | none => (none, [.parseSchedules, .displaySchedules, .createJob])

/-- `Job.Remove` from job.go lines 71-84, returning the Go error result paired
with the trace of handler invocations made. -/
def Job.Remove (j : Job) (ctx : PermContext) : Option JobError × List HandlerCall :=
  let permission :=
    if j.RemoveOnly then (detectSchedulePermission j.config.Permission ctx).1
    else getSchedulePermission j.config.Permission ctx
  if checkPermission permission ctx = false then
    (some (.permissionErr "remove"), [])
  else
    match j.handler.removeJob j.config permission with
    | some err => (some err, [.removeJob])
    | none => (none, [.removeJob])

/-- `Job.Status` from job.go lines 92-116, returning the Go error result
paired with the trace of handler invocations made. -/
def Job.Status (j : Job) : Option JobError × List HandlerCall :=
  if j.RemoveOnly then (some .removeOnlyErr, [])
  else
    match j.handler.parseSchedules j.config.Schedules with
    | .error err => (some err, [.parseSchedules])
    | .ok schedules =>
      if 0 < schedules.length then
        match j.handler.displayJobStatus j.config with
        | some err =>
          (some err, [.parseSchedules, .displayParsedSchedules, .displayJobStatus])
        | none =>
          (none, [.parseSchedules, .displayParsedSchedules, .displayJobStatus])
      else
        match j.handler.displaySchedules j.config.SubTitle j.config.Schedules with
        | some err => (some err, [.parseSchedules, .displaySchedules])
        | none =>
          match j.handler.displayJobStatus j.config with
          | some err =>
            (some err, [.parseSchedules, .displaySchedules, .displayJobStatus])
          | none => (none, [.parseSchedules, .displaySchedules, .displayJobStatus])

/-! ## Concrete jobs, handlers and contexts for the lifecycle claims -/

/-- A handler whose every operation succeeds. -/
def okHandler : Handler where
  parseSchedules := fun _ => .ok []
  displaySchedules := fun _ _ => none
  createJob := fun _ _ _ => none
  removeJob := fun _ _ => none
  displayJobStatus := fun _ => none

/-- A handler that parses one schedule and fails installation. -/
def failCreateHandler : Handler where
  parseSchedules := fun _ => .ok [allAnyEvent]
  displaySchedules := fun _ _ => none
  createJob := fun _ _ _ => some (.handlerErr 7)
  removeJob := fun _ _ => none
  displayJobStatus := fun _ => none

/-- A remove-only job with an explicit system permission policy. -/
def removeOnlySystemJob : Job where
  config :=
    { Permission := .system
      Schedules := ["daily"]
      SubTitle := "backup"
      RemoveOnly := true }
  handler := okHandler

/-- A remove-only job with an explicit user permission policy. -/
def removeOnlyUserJob : Job where
  config :=
    { Permission := .user
      Schedules := []
      SubTitle := ""
      RemoveOnly := true }
  handler := okHandler

/-- A remove-only job with the "auto" permission policy. -/
def removeOnlyAutoJob : Job where
  config :=
    { Permission := .auto
      Schedules := []
      SubTitle := ""
      RemoveOnly := true }
  handler := okHandler

/-- An ordinary job whose handler fails installation. -/
def plainUserJob : Job where
  config :=
    { Permission := .user
      Schedules := ["daily"]
      SubTitle := "t"
      RemoveOnly := false }
  handler := failCreateHandler

/-- A non-root process with no existing registration. -/
def nonRootCtx : PermContext where
  processIsRoot := false
  existingRegistration := none

/-- A non-root process with an existing system-level registration. -/
def sysRegCtx : PermContext where
  processIsRoot := false
  existingRegistration := some .system

/-- A non-root process with an existing user-level registration. -/
def userRegCtx : PermContext where
  processIsRoot := false
  existingRegistration := some .user

/-! ## Claims C4, C5, C6 about the job lifecycle -/

theorem Remove_eq_of_removeOnly (j : Job) (ctx : PermContext)
    (hro : j.config.RemoveOnly = true) :
    j.Remove ctx =
      if checkPermission (detectSchedulePermission j.config.Permission ctx).1
          ctx = false then
        (some (.permissionErr "remove"), [])
      else
        match j.handler.removeJob j.config
            (detectSchedulePermission j.config.Permission ctx).1 with
        | some err => (some err, [.removeJob])
        | none => (none, [.removeJob]) := by
  unfold Job.Remove Job.RemoveOnly
  rw [hro]
  rfl

theorem Remove_eq_of_not_removeOnly (j : Job) (ctx : PermContext)
    (hro : j.config.RemoveOnly = false) :
    j.Remove ctx =
      if checkPermission (getSchedulePermission j.config.Permission ctx) ctx
          = false then
        (some (.permissionErr "remove"), [])
      else
        match j.handler.removeJob j.config
            (getSchedulePermission j.config.Permission ctx) with
        | some err => (some err, [.removeJob])
        | none => (none, [.removeJob]) := by
  unfold Job.Remove Job.RemoveOnly
  rw [hro]
  rfl

/-- Claim C4, counterexample: a remove-only job with explicit system
permission, run without root privilege: Remove() returns a PermissionError
and the handler's RemoveJob is never invoked, contradicting the claim that
Remove() on every remove-only job still invokes the handler. -/
theorem removeOnly_remove_blocked_by_permission :
    removeOnlySystemJob.Remove nonRootCtx =
      (some (.permissionErr "remove"), []) := by
  rfl

/-- Claim C4 (amended): for every remove-only job, Create() and Status()
return the RemoveOnlyError without any handler call; Remove() invokes the
handler's RemoveJob exactly when the auto-detected permission passes the
permission check, and otherwise aborts with a PermissionError without any
handler call. -/
theorem removeOnly_lifecycle (j : Job) (ctx : PermContext)
    (hro : j.config.RemoveOnly = true) :
    j.Create ctx = (some .removeOnlyErr, []) ∧
    j.Status = (some .removeOnlyErr, []) ∧
    (checkPermission (detectSchedulePermission j.config.Permission ctx).1 ctx
        = true →
      (j.Remove ctx).2 = [.removeJob]) ∧
    (checkPermission (detectSchedulePermission j.config.Permission ctx).1 ctx
        = false →
      j.Remove ctx = (some (.permissionErr "remove"), [])) := by
  refine ⟨by simp [Job.Create, Job.RemoveOnly, hro],
    by simp [Job.Status, Job.RemoveOnly, hro], ?_, ?_⟩
  · intro hperm
    rw [Remove_eq_of_removeOnly j ctx hro, if_neg (by simp [hperm])]
    cases j.handler.removeJob j.config
        (detectSchedulePermission j.config.Permission ctx).1 <;> rfl
  · intro hperm
    rw [Remove_eq_of_removeOnly j ctx hro, if_pos hperm]

/-- Claim C4 witness: the concrete remove-only job with user-level permission:
Create and Status fail with the RemoveOnlyError and no handler call, Remove
reaches the handler's RemoveJob. -/
theorem removeOnly_lifecycle_witness :
    removeOnlyUserJob.Create nonRootCtx = (some .removeOnlyErr, []) ∧
    removeOnlyUserJob.Status = (some .removeOnlyErr, []) ∧
    (removeOnlyUserJob.Remove nonRootCtx).2 = [.removeJob] := by
  obtain ⟨h1, h2, h3, _⟩ := removeOnly_lifecycle removeOnlyUserJob nonRootCtx rfl
  exact ⟨h1, h2, h3 rfl⟩

/-- Claim C5: in Create() on a job that is not remove-only, a failed
permission check or a ParseSchedules error is returned to the caller with no
CreateJob call (no native mutation before the failure); a CreateJob failure is
returned unchanged after exactly one CreateJob invocation (no retry). -/
theorem create_fail_fast (j : Job) (ctx : PermContext)
    (hro : j.config.RemoveOnly = false) :
    (checkPermission (getSchedulePermission j.config.Permission ctx) ctx
        = false →
      j.Create ctx = (some (.permissionErr "create"), [])) ∧
    (∀ e,
      checkPermission (getSchedulePermission j.config.Permission ctx) ctx
          = true →
      j.handler.parseSchedules j.config.Schedules = .error e →
      j.Create ctx = (some e, [.parseSchedules])) ∧
    (∀ e scheds,
      checkPermission (getSchedulePermission j.config.Permission ctx) ctx
          = true →
      j.handler.parseSchedules j.config.Schedules = .ok scheds →
      j.handler.createJob j.config scheds
          (getSchedulePermission j.config.Permission ctx) = some e →
      (0 < scheds.length ∨
        j.handler.displaySchedules j.config.SubTitle j.config.Schedules
          = none) →
      (j.Create ctx).1 = some e ∧
        (j.Create ctx).2.count .createJob = 1) := by
  refine ⟨?_, ?_, ?_⟩
  · intro hperm
    simp [Job.Create, Job.RemoveOnly, hro, hperm]
  · intro e hperm hparse
    simp [Job.Create, Job.RemoveOnly, hro, hperm, hparse]
  · intro e scheds hperm hparse hcreate hdisp
    by_cases hpos : 0 < scheds.length
    · simp [Job.Create, Job.RemoveOnly, hro, hperm, hparse, hpos, hcreate]
    · have hdispOk :
          j.handler.displaySchedules j.config.SubTitle j.config.Schedules
            = none := by
        rcases hdisp with h | h
        · exact absurd h hpos
        · exact h
      simp [Job.Create, Job.RemoveOnly, hro, hperm, hparse, hpos, hdispOk,
        hcreate]

/-- Claim C5 witness: a user-level job whose handler fails installation with
error code 7: Create returns that error unchanged after exactly one CreateJob
call. -/
theorem create_fail_fast_witness :
    (plainUserJob.Create nonRootCtx).1 = some (.handlerErr 7) ∧
      (plainUserJob.Create nonRootCtx).2.count .createJob = 1 :=
  (create_fail_fast plainUserJob nonRootCtx rfl).2.2 (.handlerErr 7)
    [allAnyEvent] rfl rfl rfl (Or.inl (by decide))

/-- Claim C6, counterexample: a remove-only job with "auto" permission policy,
where detection infers a system-level registration and the process is not
root: Remove() aborts with a PermissionError before any handler call, so an
insufficient resolved permission does abort Remove() of a remove-only job,
contrary to the claim. -/
theorem removeOnly_autodetect_blocked :
    removeOnlyAutoJob.Remove sysRegCtx =
      (some (.permissionErr "remove"), []) := by
  rfl

/-- Claim C6 (amended): Remove() on a remove-only job resolves the permission
by best-effort auto-detection whose reliability flag is discarded (never
surfaced as an error), and delegates to the handler's RemoveJob when the
detected level passes the permission check; an insufficient resolved
permission aborts Remove() with a PermissionError before any handler call for
remove-only jobs just as for ordinary jobs. -/
theorem remove_permission_gate (j : Job) (ctx : PermContext) :
    (j.config.RemoveOnly = true →
      checkPermission (detectSchedulePermission j.config.Permission ctx).1 ctx
          = true →
      (j.Remove ctx).1 =
          j.handler.removeJob j.config
            (detectSchedulePermission j.config.Permission ctx).1 ∧
        (j.Remove ctx).2 = [.removeJob]) ∧
    (j.config.RemoveOnly = true →
      checkPermission (detectSchedulePermission j.config.Permission ctx).1 ctx
          = false →
      j.Remove ctx = (some (.permissionErr "remove"), [])) ∧
    (j.config.RemoveOnly = false →
      checkPermission (getSchedulePermission j.config.Permission ctx) ctx
          = false →
      j.Remove ctx = (some (.permissionErr "remove"), [])) := by
  refine ⟨?_, ?_, ?_⟩
  · intro hro hperm
    rw [Remove_eq_of_removeOnly j ctx hro, if_neg (by simp [hperm])]
    cases j.handler.removeJob j.config
        (detectSchedulePermission j.config.Permission ctx).1 <;>
      exact ⟨rfl, rfl⟩
  · intro hro hperm
    rw [Remove_eq_of_removeOnly j ctx hro, if_pos hperm]
  · intro hro hperm
    rw [Remove_eq_of_not_removeOnly j ctx hro, if_pos hperm]

/-- Claim C6 witness: the remove-only auto-permission job, with a user-level
registration detected: Remove reaches the handler's RemoveJob and returns its
(successful) result. -/
theorem remove_permission_gate_witness :
    (removeOnlyAutoJob.Remove userRegCtx).1 = none ∧
    (removeOnlyAutoJob.Remove userRegCtx).2 = [.removeJob] := by
  obtain ⟨h1, h2⟩ :=
    (remove_permission_gate removeOnlyAutoJob userRegCtx).1 rfl rfl
  exact ⟨h1, h2⟩

/-! ## The mutual-exclusion lock (modelled from the spec)

The Go `lock` package is not in the available sources (only its test is,
src/unnamed/part_000 lines 525-563); the whole lock is modelled from §4.6.
-/

/-- Modelled from the spec: owner metadata written into a lock marker
(§3 Lock, §4.6 Who). -/
structure OwnerInfo where
  user : String
  host : String
  wd : Nat
  monthName : String
  day : Nat
  hh : Nat
  mm : Nat
  ss : Nat
  tz : String
  srcPath : String
  deriving DecidableEq, Repr

/-- Modelled from the spec: the canonical diagnostic line of §4.6,
"user on host, weekday-month-day HH:MM:SS timezone from path". -/
def renderMarker (m : OwnerInfo) : String :=
  m.user ++ " on " ++ m.host ++ ", " ++ toString m.wd ++ "-" ++ m.monthName ++
    "-" ++ toString m.day ++ " " ++ toString m.hh ++ ":" ++ toString m.mm ++
    ":" ++ toString m.ss ++ " " ++ m.tz ++ " from " ++ m.srcPath

/-- Modelled from the spec: the shared filesystem as a map from lock paths to
marker file contents. -/
def LockFS : Type := String → Option String

/-- Modelled from the spec: a lock handle is identified by its path and
carries the owner metadata this holder would write (§3 Lock). -/
structure LockHandle where
  path : String
  info : OwnerInfo

/-- Modelled from the spec: TryAcquire attempts an atomic create-if-absent of
the marker file at the lock path; it returns true iff this very call created
the marker, false when a marker already exists (§4.6). -/
def tryAcquire (l : LockHandle) (fs : LockFS) : Bool × LockFS :=
  match fs l.path with
  | some _ => (false, fs)
  | none =>
    (true, fun q => if q = l.path then some (renderMarker l.info) else fs q)

/-- Modelled from the spec: Release removes the marker only when it belongs to
the current holder identity; otherwise it is a no-op (§4.6). -/
def release (l : LockHandle) (fs : LockFS) : LockFS :=
  match fs l.path with
  | some content =>
    if content = renderMarker l.info then
      fun q => if q = l.path then none else fs q
    else fs
  | none => fs

/-- The lock error taxonomy of §7 needed here. -/
inductive LockError where
  | lockCorrupt
  deriving DecidableEq, Repr

/-- Modelled from the spec: Who reads the existing marker and returns the
diagnostic line; an absent or empty (unreadable) marker is a
LockCorruptError, any other content is returned best-effort; the function is
total, it never panics (§4.6). -/
def who (l : LockHandle) (fs : LockFS) : Except LockError String :=
  match fs l.path with
  | none => .error .lockCorrupt
  | some content => if content = "" then .error .lockCorrupt else .ok content

/-- The canonical marker line is never the empty string. -/
theorem renderMarker_ne_empty (m : OwnerInfo) : renderMarker m ≠ "" := by
  intro h
  have hlen : (renderMarker m).length = 0 := by rw [h]; rfl
  rw [renderMarker] at hlen
  simp only [String.length_append] at hlen
  have h4 : (" on " : String).length = 4 := rfl
  omega

/-- A concrete lock owner. -/
def ownerA : OwnerInfo where
  user := "alice"
  host := "h1"
  wd := 1
  monthName := "Oct"
  day := 6
  hh := 9
  mm := 30
  ss := 0
  tz := "UTC"
  srcPath := "resticprofile"

/-- A second concrete lock owner on the same host. -/
def ownerB : OwnerInfo where
  user := "bob"
  host := "h1"
  wd := 1
  monthName := "Oct"
  day := 6
  hh := 9
  mm := 31
  ss := 0
  tz := "UTC"
  srcPath := "resticprofile"

/-- The filesystem with no marker anywhere. -/
def emptyLockFS : LockFS := fun _ => none

/-- The filesystem where ownerA holds the marker at "profile.lock". -/
def heldLockFS : LockFS :=
  fun q => if q = "profile.lock" then some (renderMarker ownerA) else none

/-! ## Claims C7 and C8 about the lock -/

/-- Claim C7: from a path with no marker, the first TryAcquire succeeds, a
second TryAcquire by another handle fails while the first holds the lock and
leaves the filesystem unchanged, a TryAcquire after the first holder's
Release succeeds again; and in general TryAcquire returns true iff the call
itself created the marker (the path was free and afterwards holds this
handle's marker). -/
theorem lock_mutual_exclusion (p : String) (i1 i2 i3 : OwnerInfo)
    (fs0 : LockFS) (hfree : fs0 p = none) :
    (tryAcquire ⟨p, i1⟩ fs0).1 = true ∧
    (tryAcquire ⟨p, i2⟩ (tryAcquire ⟨p, i1⟩ fs0).2).1 = false ∧
    (tryAcquire ⟨p, i2⟩ (tryAcquire ⟨p, i1⟩ fs0).2).2 =
      (tryAcquire ⟨p, i1⟩ fs0).2 ∧
    (tryAcquire ⟨p, i3⟩ (release ⟨p, i1⟩ (tryAcquire ⟨p, i1⟩ fs0).2)).1
      = true ∧
    (∀ (l : LockHandle) (fs : LockFS),
      (tryAcquire l fs).1 = true ↔
        fs l.path = none ∧
          (tryAcquire l fs).2 l.path = some (renderMarker l.info)) := by
  refine ⟨by simp [tryAcquire, hfree], by simp [tryAcquire, hfree],
    by simp [tryAcquire, hfree], by simp [tryAcquire, release, hfree], ?_⟩
  intro l fs
  cases h : fs l.path with
  | none => simp [tryAcquire, h]
  | some c => simp [tryAcquire, h]

/-- Claim C7 witness: two handles on the path "profile.lock" over the empty
filesystem. -/
theorem lock_mutual_exclusion_witness :
    (tryAcquire ⟨"profile.lock", ownerA⟩ emptyLockFS).1 = true ∧
    (tryAcquire ⟨"profile.lock", ownerB⟩
      (tryAcquire ⟨"profile.lock", ownerA⟩ emptyLockFS).2).1 = false ∧
    (tryAcquire ⟨"profile.lock", ownerB⟩
      (release ⟨"profile.lock", ownerA⟩
        (tryAcquire ⟨"profile.lock", ownerA⟩ emptyLockFS).2)).1 = true := by
  obtain ⟨h1, h2, _, h4, _⟩ :=
    lock_mutual_exclusion "profile.lock" ownerA ownerB ownerB emptyLockFS rfl
  exact ⟨h1, h2, h4⟩

/-- Claim C8: when TryAcquire fails because another holder's marker is
present, Who returns exactly the canonical diagnostic line
"user on host, weekday-month-day HH:MM:SS timezone from path" of that
holder, which is non-empty; and Who is total: on any marker content
(malformed included) it returns either a best-effort string or a
LockCorruptError, never panicking. -/
theorem lock_who_diagnostic (l2 : LockHandle) (fs : LockFS) (m : OwnerInfo)
    (hheld : fs l2.path = some (renderMarker m)) :
    (tryAcquire l2 fs).1 = false ∧
    who l2 (tryAcquire l2 fs).2 = .ok (renderMarker m) ∧
    renderMarker m ≠ "" ∧
    renderMarker m =
      m.user ++ " on " ++ m.host ++ ", " ++ toString m.wd ++ "-" ++
        m.monthName ++ "-" ++ toString m.day ++ " " ++ toString m.hh ++ ":" ++
        toString m.mm ++ ":" ++ toString m.ss ++ " " ++ m.tz ++ " from " ++
        m.srcPath ∧
    (∀ (l : LockHandle) (g : LockFS),
      (∃ s, who l g = .ok s) ∨ (∃ e, who l g = .error e)) := by
  refine ⟨by simp [tryAcquire, hheld], ?_, renderMarker_ne_empty m, rfl, ?_⟩
  · have hsame : (tryAcquire l2 fs).2 = fs := by simp [tryAcquire, hheld]
    rw [hsame, who, hheld]
    simp [renderMarker_ne_empty m]
  · intro l g
    cases h : g l.path with
    | none => exact Or.inr ⟨.lockCorrupt, by simp [who, h]⟩
    | some c =>
      by_cases hc : c = ""
      · exact Or.inr ⟨.lockCorrupt, by simp [who, h, hc]⟩
      · exact Or.inl ⟨c, by simp [who, h, hc]⟩

/-- Claim C8 witness: a concrete holder marker on "profile.lock": the second
handle's Who yields the canonical non-empty line. -/
theorem lock_who_diagnostic_witness :
    (tryAcquire ⟨"profile.lock", ownerB⟩ heldLockFS).1 = false ∧
    who ⟨"profile.lock", ownerB⟩
        (tryAcquire ⟨"profile.lock", ownerB⟩ heldLockFS).2
      = .ok (renderMarker ownerA) ∧
    renderMarker ownerA ≠ "" := by
  obtain ⟨h1, h2, h3, _, _⟩ :=
    lock_who_diagnostic ⟨"profile.lock", ownerB⟩ heldLockFS ownerA
      (by simp [heldLockFS])
  exact ⟨h1, h2, h3⟩

/-! ## The calendar expression parser and canonical rendering
(modelled from the spec)

The Go `calendar` package (`Event.Parse`, `Event.String`) is not in the
available sources; `loadSchedules` in schedule_darwin.go only calls it.  The
parser and the canonical rendering are modelled from §4.1: six
whitespace-separated fields in the positional order weekday, month, day,
hour, minute, second, each field `*`, a value, `a-b`, `a-b/c`, or a
comma-separated list, values being integers or recognized names
(case-insensitive), weekday 7 normalized to 0.
-/

/-- Modelled from the spec: the field kinds of §4.1 in positional order. -/
inductive FieldKind where
  | weekday
  | month
  | day
  | hour
  | minute
  | second
  deriving DecidableEq, Repr

/-- Modelled from the spec: lower bound of each field domain (§3). -/
def FieldKind.minVal : FieldKind → Nat
  | .month => 1
  | .day => 1
  | _ => 0

/-- Modelled from the spec: upper bound of each field domain after
normalization (§3). -/
def FieldKind.maxVal : FieldKind → Nat
  | .weekday => 6
  | .month => 12
  | .day => 31
  | .hour => 23
  | .minute => 59
  | .second => 59

/-- Modelled from the spec: the largest accepted bare value: weekday also
accepts the alias 7 for Sunday before normalization. -/
def FieldKind.singleMax : FieldKind → Nat
  | .weekday => 7
  | k => k.maxVal

/-- Modelled from the spec: weekday 7 is normalized to 0 (Sunday), §3. -/
def normalizeVal (k : FieldKind) (n : Nat) : Nat :=
  match k with
  | .weekday => if n = 7 then 0 else n
  | _ => n

/-- Field name carried by parse errors. -/
def FieldKind.fname : FieldKind → String
  | .weekday => "weekday"
  | .month => "month"
  | .day => "day"
  | .hour => "hour"
  | .minute => "minute"
  | .second => "second"

/-- Modelled from the spec: a ParseError names the field and the offending
token (§7). -/
structure ParseError where
  field : String
  token : String
  deriving DecidableEq, Repr

/-- Decimal digit test on a character. -/
def isDigitChar (c : Char) : Bool := 48 ≤ c.toNat && c.toNat ≤ 57

/-- Value of a decimal digit character. -/
def digitVal (c : Char) : Nat := c.toNat - 48

/-- Parse a non-empty all-digit character list as a decimal number. -/
def parseNatChars (cs : List Char) : Option Nat :=
  if !cs.isEmpty && cs.all isDigitChar then
    some (cs.foldl (fun a c => a * 10 + digitVal c) 0)
  else none

/-- Render a number in decimal. -/
def renderNatChars (n : Nat) : List Char :=
  if _h : n < 10 then [Nat.digitChar n]
  else renderNatChars (n / 10) ++ [Nat.digitChar (n % 10)]
decreasing_by exact Nat.div_lt_self (by omega) (by decide)

/-- Modelled from the spec: recognized weekday names (lowercase key form),
Sunday = 0. -/
def weekdayNames : List (List Char × Nat) :=
  [("sunday".data, 0), ("sun".data, 0), ("monday".data, 1), ("mon".data, 1),
    ("tuesday".data, 2), ("tue".data, 2), ("wednesday".data, 3),
    ("wed".data, 3), ("thursday".data, 4), ("thu".data, 4),
    ("friday".data, 5), ("fri".data, 5), ("saturday".data, 6),
    ("sat".data, 6)]

/-- Modelled from the spec: recognized month names (lowercase key form). -/
def monthNames : List (List Char × Nat) :=
  [("january".data, 1), ("jan".data, 1), ("february".data, 2),
    ("feb".data, 2), ("march".data, 3), ("mar".data, 3), ("april".data, 4),
    ("apr".data, 4), ("may".data, 5), ("june".data, 6), ("jun".data, 6),
    ("july".data, 7), ("jul".data, 7), ("august".data, 8), ("aug".data, 8),
    ("september".data, 9), ("sep".data, 9), ("october".data, 10),
    ("oct".data, 10), ("november".data, 11), ("nov".data, 11),
    ("december".data, 12), ("dec".data, 12)]

/-- The name table of a field kind: names exist for weekday and month only. -/
def nameTable : FieldKind → List (List Char × Nat)
  | .weekday => weekdayNames
  | .month => monthNames
  | _ => []

/-- First-match association lookup. -/
def lookupName (table : List (List Char × Nat)) (key : List Char) : Option Nat :=
  match table with
  | [] => none
  | (nm, v) :: rest => if key = nm then some v else lookupName rest key

/-- Modelled from the spec: one bare value of a field: an integer within the
field's domain (weekday alias 7 accepted, then normalized) or a recognized
name, case-insensitive. -/
def parseValueTok (k : FieldKind) (cs : List Char) : Except ParseError Nat :=
  match parseNatChars cs with
  | some n =>
    if k.minVal ≤ n && n ≤ k.singleMax then .ok (normalizeVal k n)
    else .error ⟨k.fname, String.mk cs⟩
  | none =>
    match lookupName (nameTable k) (cs.map Char.toLower) with
    | some n => .ok n
    | none => .error ⟨k.fname, String.mk cs⟩

/-- Split a character list at every occurrence of the separator; the result
has one more group than there are separators, so it is never empty. -/
def splitOnChar (sep : Char) : List Char → List (List Char)
  | [] => [[]]
  | c :: rest =>
    match splitOnChar sep rest with
    | [] => [[]]
    | g :: gs => if c = sep then [] :: g :: gs else (c :: g) :: gs

/-- Join groups with a separator character (inverse of `splitOnChar`). -/
def joinSep (sep : Char) : List (List Char) → List Char
  | [] => []
  | [g] => g
  | g :: g2 :: gs => g ++ sep :: joinSep sep (g2 :: gs)

/-- Modelled from the spec: one comma-separated item of a field per the §4.1
grammar: a bare value, a range `a-b`, or a stepped range `a-b/c`. -/
def parseItemToken (k : FieldKind) (cs : List Char) : Except ParseError SchedItem :=
  match splitOnChar '-' cs with
  | [tok] =>
    match parseValueTok k tok with
    | .error e => .error e
    | .ok n => .ok (.single n)
  | [lotok, hitok0] =>
    match splitOnChar '/' hitok0 with
    | [hitok] =>
      match parseValueTok k lotok, parseValueTok k hitok with
      | .error e, _ => .error e
      | .ok _, .error e => .error e
      | .ok lo, .ok hi =>
        if lo ≤ hi && hi ≤ k.maxVal then .ok (.range lo hi)
        else .error ⟨k.fname, String.mk cs⟩
    | [hitok, steptok] =>
      match parseValueTok k lotok, parseValueTok k hitok,
          parseNatChars steptok with
      | .error e, _, _ => .error e
      | .ok _, .error e, _ => .error e
      | .ok _, .ok _, none => .error ⟨k.fname, String.mk cs⟩
      | .ok lo, .ok hi, some st =>
        if lo ≤ hi && hi ≤ k.maxVal && 1 ≤ st then .ok (.srange lo hi st)
        else .error ⟨k.fname, String.mk cs⟩
    | _ => .error ⟨k.fname, String.mk cs⟩
  | _ => .error ⟨k.fname, String.mk cs⟩

/-- Run an except-valued function over a list, failing on the first error. -/
def mapExcept (f : α → Except ε β) : List α → Except ε (List β)
  | [] => .ok []
  | a :: l =>
    match f a with
    | .error e => .error e
    | .ok b =>
      match mapExcept f l with
      | .error e => .error e
      | .ok bs => .ok (b :: bs)

/-- Modelled from the spec: parse one whitespace-separated field: `*` or a
comma-separated set of items (§4.1). -/
def parseField (k : FieldKind) (cs : List Char) : Except ParseError CalValue :=
  if cs = ['*'] then .ok .any
  else
    match mapExcept (parseItemToken k) (splitOnChar ',' cs) with
    | .error e => .error e
    | .ok items => .ok (.set items)

/-- Modelled from the spec: canonical rendering of an item. -/
def renderItem : SchedItem → List Char
  | .single n => renderNatChars n
  | .range lo hi => renderNatChars lo ++ '-' :: renderNatChars hi
  | .srange lo hi st =>
    renderNatChars lo ++ '-' :: (renderNatChars hi ++ '/' :: renderNatChars st)

/-- Modelled from the spec: canonical rendering of a field value. -/
def renderField : CalValue → List Char
  | .any => ['*']
  | .set items => joinSep ',' (items.map renderItem)

/-- Split on spaces dropping empty groups (whitespace separation of §4.1). -/
def splitWS (cs : List Char) : List (List Char) :=
  (splitOnChar ' ' cs).filter (fun g => !g.isEmpty)

/-- Modelled from the spec: `Event.Parse` — six whitespace-separated fields in
the positional order weekday, month, day, hour, minute, second (§4.1). -/
def parseEventChars (cs : List Char) : Except ParseError Event :=
  match splitWS cs with
  | [w, mo, d, h, mi, se] =>
    match parseField .weekday w with
    | .error e => .error e
    | .ok wv =>
      match parseField .month mo with
      | .error e => .error e
      | .ok mov =>
        match parseField .day d with
        | .error e => .error e
        | .ok dv =>
          match parseField .hour h with
          | .error e => .error e
          | .ok hv =>
            match parseField .minute mi with
            | .error e => .error e
            | .ok miv =>
              match parseField .second se with
              | .error e => .error e
              | .ok sev =>
                .ok ⟨wv, mov, dv, hv, miv, sev⟩
  | _ => .error ⟨"schedule", String.mk cs⟩

/-- Modelled from the spec: `Event.String` — the canonical rendering used for
display and the §8 round-trip invariant. -/
def renderEventChars (e : Event) : List Char :=
  joinSep ' ' [renderField e.WeekDay, renderField e.Month, renderField e.Day,
    renderField e.Hour, renderField e.Minute, renderField e.Second]

/-- `Event.Parse` on a raw schedule string. -/
def parseEvent (s : String) : Except ParseError Event :=
  parseEventChars s.data

/-- `Event.String`, the canonical rendering of a parsed expression. -/
def renderEvent (e : Event) : String :=
  String.mk (renderEventChars e)

/-! ## Digit rendering round trip -/

theorem digitChar_is_digit {d : Nat} (h : d < 10) :
    isDigitChar (Nat.digitChar d) = true := by
  interval_cases d <;> decide

theorem digitVal_digitChar {d : Nat} (h : d < 10) :
    digitVal (Nat.digitChar d) = d := by
  interval_cases d <;> decide

theorem renderNatChars_all_digits (n : Nat) :
    ∀ c ∈ renderNatChars n, isDigitChar c = true := by
  induction n using Nat.strong_induction_on with
  | _ n ih =>
    intro c hc
    rw [renderNatChars] at hc
    split at hc
    · rename_i h
      simp only [List.mem_singleton] at hc
      subst hc
      exact digitChar_is_digit h
    · rename_i h
      rw [List.mem_append] at hc
      rcases hc with hc | hc
      · exact ih (n / 10) (Nat.div_lt_self (by omega) (by decide)) c hc
      · simp only [List.mem_singleton] at hc
        subst hc
        exact digitChar_is_digit (Nat.mod_lt n (by decide))

theorem renderNatChars_ne_nil (n : Nat) : renderNatChars n ≠ [] := by
  rw [renderNatChars]
  split
  · simp
  · simp

theorem foldl_digits_renderNat (n : Nat) : ∀ a : Nat,
    (renderNatChars n).foldl (fun x c => x * 10 + digitVal c) a =
      a * 10 ^ (renderNatChars n).length + n := by
  induction n using Nat.strong_induction_on with
  | _ n ih =>
    intro a
    rw [renderNatChars]
    split
    · rename_i h
      simp only [List.foldl_cons, List.foldl_nil, List.length_singleton,
        pow_one, digitVal_digitChar h]
    · rename_i h
      rw [List.foldl_append,
        ih (n / 10) (Nat.div_lt_self (by omega) (by decide)) a]
      simp only [List.foldl_cons, List.foldl_nil, List.length_append,
        List.length_singleton, digitVal_digitChar (Nat.mod_lt n (by decide))]
      have hm : n / 10 * 10 + n % 10 = n := by omega
      rw [pow_succ]
      calc (a * 10 ^ (renderNatChars (n / 10)).length + n / 10) * 10 + n % 10
          = a * (10 ^ (renderNatChars (n / 10)).length * 10) +
              (n / 10 * 10 + n % 10) := by ring
        _ = a * (10 ^ (renderNatChars (n / 10)).length * 10) + n := by
              rw [hm]

theorem parseNatChars_renderNatChars (n : Nat) :
    parseNatChars (renderNatChars n) = some n := by
  have hall : (renderNatChars n).all isDigitChar = true :=
    List.all_eq_true.mpr (renderNatChars_all_digits n)
  have hempty : (renderNatChars n).isEmpty = false := by
    rw [List.isEmpty_eq_false]
    exact renderNatChars_ne_nil n
  rw [parseNatChars, hempty, hall]
  simp only [Bool.not_false, Bool.and_true, if_pos rfl]
  rw [foldl_digits_renderNat n 0]
  simp

theorem not_mem_renderNat {c : Char} (h : isDigitChar c = false) (n : Nat) :
    c ∉ renderNatChars n := fun hc => by
  rw [renderNatChars_all_digits n c hc] at h
  cases h

/-! ## Splitting and joining -/

theorem splitOnChar_ne_nil (sep : Char) (cs : List Char) :
    splitOnChar sep cs ≠ [] := by
  induction cs with
  | nil => simp [splitOnChar]
  | cons c rest ih =>
    rw [splitOnChar]
    cases hs : splitOnChar sep rest with
    | nil => simp
    | cons g gs => by_cases hc : c = sep <;> simp [hc]

theorem splitOnChar_not_mem {sep : Char} {g : List Char} (h : sep ∉ g) :
    splitOnChar sep g = [g] := by
  induction g with
  | nil => rfl
  | cons c rest ih =>
    have hc : c ≠ sep := fun hcc => h (by simp [hcc])
    have hrest : sep ∉ rest := fun hm => h (by simp [hm])
    rw [splitOnChar, ih hrest]
    simp [hc]

theorem splitOnChar_append {sep : Char} {g : List Char} (h : sep ∉ g)
    (rest : List Char) :
    splitOnChar sep (g ++ sep :: rest) = g :: splitOnChar sep rest := by
  induction g with
  | nil =>
    simp only [List.nil_append]
    rw [splitOnChar]
    cases hs : splitOnChar sep rest with
    | nil => exact absurd hs (splitOnChar_ne_nil sep rest)
    | cons g0 gs => simp
  | cons c g ih =>
    have hc : c ≠ sep := fun hcc => h (by simp [hcc])
    have hg : sep ∉ g := fun hm => h (by simp [hm])
    simp only [List.cons_append]
    rw [splitOnChar, ih hg]
    cases hs : splitOnChar sep rest with
    | nil => exact absurd hs (splitOnChar_ne_nil sep rest)
    | cons g0 gs => simp [hc]

theorem splitOnChar_joinSep {sep : Char} :
    ∀ gs : List (List Char), gs ≠ [] → (∀ g ∈ gs, sep ∉ g) →
      splitOnChar sep (joinSep sep gs) = gs
  | [], h, _ => absurd rfl h
  | [g], _, hall => by
    show splitOnChar sep g = [g]
    exact splitOnChar_not_mem (hall g (by simp))
  | g :: g2 :: gs, _, hall => by
    show splitOnChar sep (g ++ sep :: joinSep sep (g2 :: gs)) = _
    rw [splitOnChar_append (hall g (by simp)),
      splitOnChar_joinSep (g2 :: gs) (by simp)
        (fun x hx => hall x (by simp at hx ⊢; tauto))]

theorem mem_joinSep {sep : Char} {c : Char} :
    ∀ {gs : List (List Char)}, c ∈ joinSep sep gs →
      c = sep ∨ ∃ g ∈ gs, c ∈ g
  | [], h => by simp [joinSep] at h
  | [g], h => Or.inr ⟨g, by simp, h⟩
  | g :: g2 :: gs, h => by
    rw [show joinSep sep (g :: g2 :: gs) = g ++ sep :: joinSep sep (g2 :: gs)
      from rfl, List.mem_append] at h
    rcases h with h | h
    · exact Or.inr ⟨g, by simp, h⟩
    · rcases List.mem_cons.mp h with rfl | h
      · exact Or.inl rfl
      · rcases mem_joinSep h with h | ⟨g1, hg1, hcg⟩
        · exact Or.inl h
        · refine Or.inr ⟨g1, ?_, hcg⟩
          simp at hg1 ⊢
          tauto

theorem joinSep_ne_nil {sep : Char} :
    ∀ {gs : List (List Char)}, gs ≠ [] → (∀ g ∈ gs, g ≠ []) →
      joinSep sep gs ≠ []
  | [], h, _ => absurd rfl h
  | [g], _, hne => by
    show g ≠ []
    exact hne g (by simp)
  | g :: g2 :: gs, _, _ => by
    show g ++ sep :: joinSep sep (g2 :: gs) ≠ []
    simp

/-! ## Item-level round trip -/

/-- The domain guarantees a parsed item satisfies (§3 invariant). -/
def ItemValid (k : FieldKind) : SchedItem → Prop
  | .single n => k.minVal ≤ n ∧ n ≤ k.maxVal
  | .range lo hi => k.minVal ≤ lo ∧ lo ≤ hi ∧ hi ≤ k.maxVal
  | .srange lo hi st => k.minVal ≤ lo ∧ lo ≤ hi ∧ hi ≤ k.maxVal ∧ 1 ≤ st

instance (k : FieldKind) (it : SchedItem) : Decidable (ItemValid k it) := by
  cases it <;> simp only [ItemValid] <;> infer_instance

theorem mem_renderItem {c : Char} :
    ∀ {it : SchedItem}, c ∈ renderItem it →
      isDigitChar c = true ∨ c = '-' ∨ c = '/'
  | .single n, h => Or.inl (renderNatChars_all_digits n c h)
  | .range lo hi, h => by
    rw [renderItem, List.mem_append] at h
    rcases h with h | h
    · exact Or.inl (renderNatChars_all_digits lo c h)
    · rcases List.mem_cons.mp h with rfl | h
      · exact Or.inr (Or.inl rfl)
      · exact Or.inl (renderNatChars_all_digits hi c h)
  | .srange lo hi st, h => by
    rw [renderItem, List.mem_append] at h
    rcases h with h | h
    · exact Or.inl (renderNatChars_all_digits lo c h)
    · rcases List.mem_cons.mp h with rfl | h
      · exact Or.inr (Or.inl rfl)
      · rw [List.mem_append] at h
        rcases h with h | h
        · exact Or.inl (renderNatChars_all_digits hi c h)
        · rcases List.mem_cons.mp h with rfl | h
          · exact Or.inr (Or.inr rfl)
          · exact Or.inl (renderNatChars_all_digits st c h)

theorem not_mem_renderItem {c : Char} (h1 : isDigitChar c = false)
    (h2 : c ≠ '-') (h3 : c ≠ '/') (it : SchedItem) : c ∉ renderItem it :=
  fun hmem => by
    rcases mem_renderItem hmem with h | h | h
    · rw [h1] at h; cases h
    · exact h2 h
    · exact h3 h

theorem renderItem_ne_nil (it : SchedItem) : renderItem it ≠ [] := by
  cases it with
  | single n => exact renderNatChars_ne_nil n
  | range lo hi => simp [renderItem]
  | srange lo hi st => simp [renderItem]

theorem maxVal_le_singleMax (k : FieldKind) : k.maxVal ≤ k.singleMax := by
  cases k <;> decide

theorem normalizeVal_eq_self {k : FieldKind} {n : Nat} (h : n ≤ k.maxVal) :
    normalizeVal k n = n := by
  cases k with
  | weekday =>
    have h6 : n ≤ 6 := h
    show (if n = 7 then 0 else n) = n
    rw [if_neg (by omega)]
  | month => rfl
  | day => rfl
  | hour => rfl
  | minute => rfl
  | second => rfl

theorem normalizeVal_bounds {k : FieldKind} {n : Nat} (h1 : k.minVal ≤ n)
    (h2 : n ≤ k.singleMax) :
    k.minVal ≤ normalizeVal k n ∧ normalizeVal k n ≤ k.maxVal := by
  cases k with
  | weekday =>
    have h7 : n ≤ 7 := h2
    show 0 ≤ (if n = 7 then 0 else n) ∧ (if n = 7 then 0 else n) ≤ 6
    by_cases hn : n = 7
    · rw [if_pos hn]; omega
    · rw [if_neg hn]; omega
  | month => exact ⟨h1, h2⟩
  | day => exact ⟨h1, h2⟩
  | hour => exact ⟨h1, h2⟩
  | minute => exact ⟨h1, h2⟩
  | second => exact ⟨h1, h2⟩

theorem parseValueTok_renderNat {k : FieldKind} {n : Nat} (h1 : k.minVal ≤ n)
    (h2 : n ≤ k.maxVal) :
    parseValueTok k (renderNatChars n) = .ok n := by
  have h3 : n ≤ k.singleMax := le_trans h2 (maxVal_le_singleMax k)
  simp only [parseValueTok, parseNatChars_renderNatChars n]
  rw [if_pos (by simp [h1, h3]), normalizeVal_eq_self h2]

theorem lookupName_prop {P : Nat → Prop} :
    ∀ {table : List (List Char × Nat)}, (∀ p ∈ table, P p.2) →
      ∀ {key : List Char} {n : Nat}, lookupName table key = some n → P n
  | [], _, _, _, h => by rw [lookupName] at h; cases h
  | (nm, v) :: rest, hall, key, n, h => by
    rw [lookupName] at h
    split at h
    · exact (Option.some.inj h) ▸ hall (nm, v) (by simp)
    · exact lookupName_prop (fun p hp => hall p (by simp [hp])) h

theorem nameTable_bounds (k : FieldKind) :
    ∀ p ∈ nameTable k, k.minVal ≤ p.2 ∧ p.2 ≤ k.maxVal := by
  cases k <;> decide

theorem parseValueTok_valid {k : FieldKind} {cs : List Char} {n : Nat}
    (h : parseValueTok k cs = .ok n) :
    k.minVal ≤ n ∧ n ≤ k.maxVal := by
  unfold parseValueTok at h
  split at h
  · rename_i n0 hp
    split at h
    · rename_i hcond
      obtain rfl := Except.ok.inj h
      simp only [Bool.and_eq_true, decide_eq_true_eq] at hcond
      exact normalizeVal_bounds hcond.1 hcond.2
    · cases h
  · split at h
    · rename_i n0 hlook
      obtain rfl := Except.ok.inj h
      exact @lookupName_prop (fun m => k.minVal ≤ m ∧ m ≤ k.maxVal)
        (nameTable k) (nameTable_bounds k) _ _ hlook
    · cases h

theorem dash_not_digit : isDigitChar '-' = false := by decide

theorem slash_not_digit : isDigitChar '/' = false := by decide

theorem parseItemToken_renderItem {k : FieldKind} {it : SchedItem}
    (h : ItemValid k it) :
    parseItemToken k (renderItem it) = .ok it := by
  cases it with
  | single n =>
    obtain ⟨h1, h2⟩ := h
    show parseItemToken k (renderNatChars n) = .ok (.single n)
    simp only [parseItemToken,
      splitOnChar_not_mem (not_mem_renderNat dash_not_digit n),
      parseValueTok_renderNat h1 h2]
  | range lo hi =>
    obtain ⟨h1, h2, h3⟩ := h
    have hlo : lo ≤ k.maxVal := le_trans h2 h3
    have hhimin : k.minVal ≤ hi := le_trans h1 h2
    show parseItemToken k (renderNatChars lo ++ '-' :: renderNatChars hi)
      = .ok (.range lo hi)
    simp only [parseItemToken,
      splitOnChar_append (not_mem_renderNat dash_not_digit lo),
      splitOnChar_not_mem (not_mem_renderNat dash_not_digit hi),
      splitOnChar_not_mem (not_mem_renderNat slash_not_digit hi),
      parseValueTok_renderNat h1 hlo, parseValueTok_renderNat hhimin h3]
    rw [if_pos (by simp [h2, h3])]
  | srange lo hi st =>
    obtain ⟨h1, h2, h3, h4⟩ := h
    have hlo : lo ≤ k.maxVal := le_trans h2 h3
    have hhimin : k.minVal ≤ hi := le_trans h1 h2
    have hdashrest : '-' ∉ renderNatChars hi ++ '/' :: renderNatChars st := by
      intro hm
      rcases List.mem_append.mp hm with hm | hm
      · exact not_mem_renderNat dash_not_digit hi hm
      · rcases List.mem_cons.mp hm with hm | hm
        · exact absurd hm (by decide)
        · exact not_mem_renderNat dash_not_digit st hm
    show parseItemToken k
        (renderNatChars lo ++ '-' ::
          (renderNatChars hi ++ '/' :: renderNatChars st))
      = .ok (.srange lo hi st)
    simp only [parseItemToken,
      splitOnChar_append (not_mem_renderNat dash_not_digit lo),
      splitOnChar_not_mem hdashrest,
      splitOnChar_append (not_mem_renderNat slash_not_digit hi),
      splitOnChar_not_mem (not_mem_renderNat slash_not_digit st),
      parseValueTok_renderNat h1 hlo, parseValueTok_renderNat hhimin h3,
      parseNatChars_renderNatChars st]
    rw [if_pos (by simp [h2, h3, h4])]

theorem parseItemToken_valid {k : FieldKind} {cs : List Char} {it : SchedItem}
    (h : parseItemToken k cs = .ok it) : ItemValid k it := by
  unfold parseItemToken at h
  split at h
  · split at h
    · cases h
    · rename_i n hv
      obtain rfl := Except.ok.inj h
      exact parseValueTok_valid hv
  · split at h
    · split at h
      · cases h
      · cases h
      · rename_i lo hi hvlo hvhi
        split at h
        · rename_i hcond
          obtain rfl := Except.ok.inj h
          simp only [Bool.and_eq_true, decide_eq_true_eq] at hcond
          exact ⟨(parseValueTok_valid hvlo).1, hcond.1, hcond.2⟩
        · cases h
    · split at h
      · cases h
      · cases h
      · cases h
      · rename_i lo hi st hvlo hvhi hstep
        split at h
        · rename_i hcond
          obtain rfl := Except.ok.inj h
          simp only [Bool.and_eq_true, decide_eq_true_eq] at hcond
          exact ⟨(parseValueTok_valid hvlo).1, hcond.1.1, hcond.1.2, hcond.2⟩
        · cases h
    · cases h
  · cases h

/-! ## Field-level round trip -/

/-- The domain guarantees a parsed field satisfies (§3 invariant). -/
def FieldValid (k : FieldKind) : CalValue → Prop
  | .any => True
  | .set items => items ≠ [] ∧ ∀ it ∈ items, ItemValid k it

instance (k : FieldKind) (v : CalValue) : Decidable (FieldValid k v) := by
  cases v <;> simp only [FieldValid] <;> infer_instance

theorem comma_not_mem_renderItem (it : SchedItem) : ',' ∉ renderItem it :=
  not_mem_renderItem (by decide) (by decide) (by decide) it

theorem space_not_mem_renderItem (it : SchedItem) : ' ' ∉ renderItem it :=
  not_mem_renderItem (by decide) (by decide) (by decide) it

theorem star_not_mem_renderItem (it : SchedItem) : '*' ∉ renderItem it :=
  not_mem_renderItem (by decide) (by decide) (by decide) it

theorem mapExcept_map_ok {α β ε : Type} {f : α → Except ε β} {g : β → α} :
    ∀ {l : List β}, (∀ b ∈ l, f (g b) = .ok b) →
      mapExcept f (l.map g) = .ok l
  | [], _ => rfl
  | b :: l, hall => by
    have hrec : mapExcept f (l.map g) = .ok l :=
      mapExcept_map_ok (fun x hx => hall x (List.mem_cons_of_mem b hx))
    simp only [List.map_cons, mapExcept, hall b (List.mem_cons_self b l), hrec]

theorem mapExcept_ok_forall {α β ε : Type} {f : α → Except ε β} {P : β → Prop}
    (hf : ∀ a b, f a = .ok b → P b) :
    ∀ {l : List α} {ys : List β}, mapExcept f l = .ok ys → ∀ b ∈ ys, P b := by
  intro l
  induction l with
  | nil =>
    intro ys h b hb
    simp only [mapExcept] at h
    obtain rfl := Except.ok.inj h
    cases hb
  | cons a l ih =>
    intro ys h b hb
    simp only [mapExcept] at h
    split at h
    · cases h
    · rename_i b0 hfa
      split at h
      · cases h
      · rename_i bs hrec
        obtain rfl := Except.ok.inj h
        rcases List.mem_cons.mp hb with rfl | hb
        · exact hf a b hfa
        · exact ih hrec b hb

theorem mapExcept_ok_ne_nil {α β ε : Type} {f : α → Except ε β} :
    ∀ {l : List α} {ys : List β}, mapExcept f l = .ok ys → l ≠ [] →
      ys ≠ [] := by
  intro l ys h hl
  cases l with
  | nil => exact absurd rfl hl
  | cons a l =>
    simp only [mapExcept] at h
    split at h
    · cases h
    · split at h
      · cases h
      · obtain rfl := Except.ok.inj h
        simp

theorem parseField_renderField {k : FieldKind} {v : CalValue}
    (h : FieldValid k v) : parseField k (renderField v) = .ok v := by
  cases v with
  | any => rfl
  | set items =>
    obtain ⟨hne, hall⟩ := h
    have hstar : joinSep ',' (items.map renderItem) ≠ ['*'] := by
      intro heq
      have hmem : '*' ∈ joinSep ',' (items.map renderItem) := by
        rw [heq]; simp
      rcases mem_joinSep hmem with hm | ⟨g, hg, hcg⟩
      · exact absurd hm (by decide)
      · rcases List.mem_map.mp hg with ⟨it, _, rfl⟩
        exact star_not_mem_renderItem it hcg
    show parseField k (joinSep ',' (items.map renderItem)) = .ok (.set items)
    rw [parseField, if_neg hstar,
      splitOnChar_joinSep (items.map renderItem) (by simp [hne])
        (fun g hg => by
          rcases List.mem_map.mp hg with ⟨it, _, rfl⟩
          exact comma_not_mem_renderItem it),
      mapExcept_map_ok (fun it hit => parseItemToken_renderItem (hall it hit))]

theorem parseField_valid {k : FieldKind} {cs : List Char} {v : CalValue}
    (h : parseField k cs = .ok v) : FieldValid k v := by
  rw [parseField] at h
  split at h
  · obtain rfl := Except.ok.inj h
    trivial
  · split at h
    · cases h
    · rename_i items hmap
      obtain rfl := Except.ok.inj h
      exact ⟨mapExcept_ok_ne_nil hmap (splitOnChar_ne_nil ',' cs),
        mapExcept_ok_forall (fun a b hab => parseItemToken_valid hab) hmap⟩

theorem space_not_mem_renderField (v : CalValue) : ' ' ∉ renderField v := by
  cases v with
  | any =>
    intro h
    simp only [renderField, List.mem_singleton] at h
    exact absurd h (by decide)
  | set items =>
    intro h
    rcases mem_joinSep h with hm | ⟨g, hg, hcg⟩
    · exact absurd hm (by decide)
    · rcases List.mem_map.mp hg with ⟨it, _, rfl⟩
      exact space_not_mem_renderItem it hcg

theorem renderField_ne_nil {k : FieldKind} {v : CalValue}
    (h : FieldValid k v) : renderField v ≠ [] := by
  cases v with
  | any => simp [renderField]
  | set items =>
    obtain ⟨hne, _⟩ := h
    show joinSep ',' (items.map renderItem) ≠ []
    exact joinSep_ne_nil (by simp [hne]) (fun g hg => by
      rcases List.mem_map.mp hg with ⟨it, _, rfl⟩
      exact renderItem_ne_nil it)

/-! ## Event-level round trip -/

/-- The §3 invariant a parsed expression satisfies. -/
def EventValid (e : Event) : Prop :=
  FieldValid .weekday e.WeekDay ∧ FieldValid .month e.Month ∧
    FieldValid .day e.Day ∧ FieldValid .hour e.Hour ∧
    FieldValid .minute e.Minute ∧ FieldValid .second e.Second

instance (e : Event) : Decidable (EventValid e) := by
  unfold EventValid; infer_instance

theorem splitWS_renderEvent {e : Event} (h : EventValid e) :
    splitWS (renderEventChars e) =
      [renderField e.WeekDay, renderField e.Month, renderField e.Day,
        renderField e.Hour, renderField e.Minute, renderField e.Second] := by
  obtain ⟨h1, h2, h3, h4, h5, h6⟩ := h
  rw [renderEventChars, splitWS,
    splitOnChar_joinSep _ (by simp)
      (fun g hg => by
        simp only [List.mem_cons, List.mem_singleton, List.not_mem_nil,
          or_false] at hg
        rcases hg with rfl | rfl | rfl | rfl | rfl | rfl <;>
          exact space_not_mem_renderField _)]
  rw [List.filter_eq_self.mpr]
  intro g hg
  simp only [List.mem_cons, List.mem_singleton, List.not_mem_nil,
    or_false] at hg
  have honep : ∀ w : List Char, w ≠ [] → (!w.isEmpty) = true := by
    intro w hw
    simp [List.isEmpty_eq_false, hw]
  rcases hg with rfl | rfl | rfl | rfl | rfl | rfl
  · exact honep _ (renderField_ne_nil h1)
  · exact honep _ (renderField_ne_nil h2)
  · exact honep _ (renderField_ne_nil h3)
  · exact honep _ (renderField_ne_nil h4)
  · exact honep _ (renderField_ne_nil h5)
  · exact honep _ (renderField_ne_nil h6)

theorem parseEventChars_renderEvent {e : Event} (h : EventValid e) :
    parseEventChars (renderEventChars e) = .ok e := by
  obtain ⟨h1, h2, h3, h4, h5, h6⟩ := h
  simp only [parseEventChars, splitWS_renderEvent ⟨h1, h2, h3, h4, h5, h6⟩,
    parseField_renderField h1, parseField_renderField h2,
    parseField_renderField h3, parseField_renderField h4,
    parseField_renderField h5, parseField_renderField h6]

theorem parseEventChars_valid {cs : List Char} {e : Event}
    (h : parseEventChars cs = .ok e) : EventValid e := by
  unfold parseEventChars at h
  split at h
  · split at h
    · cases h
    · rename_i wv hw
      split at h
      · cases h
      · rename_i mov hmo
        split at h
        · cases h
        · rename_i dv hd
          split at h
          · cases h
          · rename_i hv2 hhr
            split at h
            · cases h
            · rename_i miv hmi
              split at h
              · cases h
              · rename_i sev hse
                obtain rfl := Except.ok.inj h
                exact ⟨parseField_valid hw, parseField_valid hmo,
                  parseField_valid hd, parseField_valid hhr,
                  parseField_valid hmi, parseField_valid hse⟩
  · cases h

/-! ## Claim C9: the parse-render round trip -/

/-- Claim C9: for every raw schedule string that parses successfully,
re-parsing the canonical rendering of the parsed expression yields exactly the
expression obtained by parsing the raw string (normalization, such as weekday
7 to 0, happens during the first parse and is preserved). -/
theorem calendar_roundtrip (s : String) (e : Event)
    (h : parseEvent s = .ok e) :
    parseEvent (renderEvent e) = parseEvent s := by
  have hval : EventValid e := parseEventChars_valid h
  rw [h]
  show parseEventChars (String.mk (renderEventChars e)).data = .ok e
  exact parseEventChars_renderEvent hval

/-- The parse of "mon-fri * * * 0,30 0". -/
def sampleEvent : Event :=
  ⟨.set [.range 1 5], .any, .any, .any, .set [.single 0, .single 30],
    .set [.single 0]⟩

/-- Claim C9 witness: the raw string "mon-fri * * * 0,30 0" parses, and
re-parsing its canonical rendering gives the same parse result. -/
theorem calendar_roundtrip_witness :
    parseEvent "mon-fri * * * 0,30 0" = .ok sampleEvent ∧
    parseEvent (renderEvent sampleEvent) =
      parseEvent "mon-fri * * * 0,30 0" :=
  ⟨by rfl, calendar_roundtrip "mon-fri * * * 0,30 0" sampleEvent (by rfl)⟩

end Resticprofile
